import Mathlib

/-!
Shallow embedding of the Brainfuck interpreter from the Rust-Training
repository: the program model (`bft_types`, session 4) and the tape /
execution engine (`bft_interp`, session 6), together with theorems
checking the specification's claims against it.

Machine integers (`usize`, `u8`) are modelled as `Nat` with explicit
`% 256` where u8 wrapping matters; fallible Rust functions returning
`Result` are modelled with `Except` / `Option`.
-/

namespace Bft

/-- Brainfuck commands (`BfCommand` in bft_types/src/lib.rs). -/
inductive BfCommand where
  | comment
  | incDataPointer
  | decDataPointer
  | incValue
  | decValue
  | outputValue
  | inputValue
  | jumpForward
  | jumpBackward
deriving DecidableEq, Repr

/-- Conversion of a character to a BF command (`BfCommand::from_char`).
Returns `none` for every character that is not one of the eight
instruction characters. -/
def BfCommand.fromChar (ch : Char) : Option BfCommand :=
  match ch with
  | '>' => some .incDataPointer
  | '<' => some .decDataPointer
  | '+' => some .incValue
  | '-' => some .decValue
  | '.' => some .outputValue
  | ',' => some .inputValue
  | '[' => some .jumpForward
  | ']' => some .jumpBackward
  | _ => none

/-- Location of a command in a BF program (`BfLocation`): line number and
offset within the line. -/
structure BfLocation where
  line : Nat
  offset : Nat
deriving DecidableEq, Repr

/-- A BF instruction (`BfInstruction`): command plus source location. -/
structure BfInstruction where
  command : BfCommand
  location : BfLocation
deriving DecidableEq, Repr

/-- A matched pair of jumps (`BfJumpLocation`): nesting depth and the
source locations of the forward and backward brackets. -/
structure BfJumpLocation where
  depth : Nat
  forward : BfLocation
  backward : BfLocation
deriving DecidableEq, Repr

/-- A BF program (`BfProgram`): filename, parsed instructions and the
jump-location table filled in by `validate`. -/
structure BfProgram where
  filename : String
  instructions : List BfInstruction
  jumpLocations : List BfJumpLocation
deriving DecidableEq, Repr

/-- Rust's `str::lines()` on a list of characters: split at `'\n'`,
stripping a `'\r'` that immediately precedes the `'\n'`; the final line
does not need a terminator, and a trailing terminator does not produce an
extra empty line. -/
def rustLines : List Char → List (List Char)
  | [] => []
  | '\r' :: '\n' :: rest => [] :: rustLines rest
  | '\n' :: rest => [] :: rustLines rest
  | c :: rest =>
    match rustLines rest with
    | [] => [[c]]
    | l :: ls => (c :: l) :: ls

/-- The inner loop of `BfProgram::new`: scan the characters of one line,
starting at column `charPos`, appending an instruction for every
recognized command character. -/
def parseLine (lineNo charPos : Nat) : List Char → List BfInstruction
  | [] => []
  | ch :: rest =>
    match BfCommand.fromChar ch with
    | some command => ⟨command, ⟨lineNo, charPos⟩⟩ :: parseLine lineNo (charPos + 1) rest
    | none => parseLine lineNo (charPos + 1) rest

/-- The outer loop of `BfProgram::new`: scan the lines, incrementing the
line number for each and restarting the column at 1. -/
def parseLines (lineNo : Nat) : List (List Char) → List BfInstruction
  | [] => []
  | l :: rest => parseLine lineNo 1 l ++ parseLines (lineNo + 1) rest

/-- Creation of a BF program from source text (`BfProgram::new`): parse
the content line by line, starting with line number 1 and column 1 on
each line; the jump-location table starts empty. -/
def BfProgram.new (filename : String) (content : List Char) : BfProgram :=
  { filename := filename
    instructions := parseLines 1 (rustLines content)
    jumpLocations := [] }

/-- The `std::io::Result` wrapper of `BfProgram::new`: the Rust body ends
in an unconditional `Ok(program)`, so the error case is never produced. -/
def BfProgram.newResult (filename : String) (content : List Char) : Option BfProgram :=
  some (BfProgram.new filename content)

/-- Specification-side description of parsing (modelled from the spec's
words): walk the raw text character by character; the line number starts
at 1 and increments on each newline, the column starts at 1 on each line
and advances for every character. Each character is paired with its
location. -/
def locatedChars (ln col : Nat) : List Char → List (Char × Nat × Nat)
  | [] => []
  | c :: rest =>
    (c, ln, col) ::
      (if c = '\n' then locatedChars (ln + 1) 1 rest else locatedChars ln (col + 1) rest)

/-- Specification-side conversion of one located character: recognized
characters give one instruction, everything else contributes nothing. -/
def instOfLocated : Char × Nat × Nat → Option BfInstruction :=
  fun x => (BfCommand.fromChar x.1).map (fun cmd => ⟨cmd, ⟨x.2.1, x.2.2⟩⟩)

/-- Specification-side instruction sequence of a source text. -/
def specInstructions (text : List Char) : List BfInstruction :=
  (locatedChars 1 1 text).filterMap instOfLocated

/-- The for-loop of `BfProgram::validate`: walk the instructions keeping a
stack of pending forward brackets and the accumulated jump pairs (the
pairs accumulator starts at `self.jump_locations`, which `validate` never
clears). A forward bracket is pushed; a backward bracket pops the most
recent forward bracket and records a pair whose depth is the stack length
after the pop, or fails immediately with the offending instruction when
the stack is empty (Rust: `Err(anyhow!("Extra {}", i))`). On normal loop
exit the final stack and pairs are returned. -/
def validateLoop :
    List BfInstruction → List BfInstruction → List BfJumpLocation →
      Except (List BfJumpLocation × BfInstruction) (List BfInstruction × List BfJumpLocation)
  | [], stack, pairs => .ok (stack, pairs)
  | i :: rest, stack, pairs =>
    if i.command = .jumpForward then
      validateLoop rest (i :: stack) pairs
    else if i.command = .jumpBackward then
      match stack with
      | [] => .error (pairs, i)
      | lastJump :: stack' =>
        validateLoop rest stack' (pairs ++ [⟨stack'.length, lastJump.location, i.location⟩])
    else
      validateLoop rest stack pairs

/-- Validation of a BF program (`BfProgram::validate`). The mutation of
`self.jump_locations` is modelled by returning the updated program; the
`Result<(), anyhow::Error>` is modelled as `Option BfInstruction`, `none`
for `Ok(())` and `some i` for `Err(anyhow!("Extra {}", i))`. After the
loop, a non-empty stack makes validation fail with the popped top of the
stack (the most recently pushed pending forward bracket). -/
def BfProgram.validate (p : BfProgram) : BfProgram × Option BfInstruction :=
  match validateLoop p.instructions [] p.jumpLocations with
  | .error (pairs, i) => ({ p with jumpLocations := pairs }, some i)
  | .ok (stack, pairs) =>
    match stack with
    | [] => ({ p with jumpLocations := pairs }, none)
    | top :: _ => ({ p with jumpLocations := pairs }, some top)

/-- Number of forward-bracket instructions in a list. -/
def forwardCount (l : List BfInstruction) : Nat :=
  l.countP (fun i => decide (i.command = .jumpForward))

/-- Number of backward-bracket instructions in a list. -/
def backwardCount (l : List BfInstruction) : Nat :=
  l.countP (fun i => decide (i.command = .jumpBackward))

/-- Specification-side well-nestedness (modelled from the spec's words --
"balanced and properly paired"): in every prefix the backward brackets
never outnumber the forward brackets, and over the whole sequence the two
counts are equal. -/
def wellNested (l : List BfInstruction) : Prop :=
  (∀ pre post, l = pre ++ post → backwardCount pre ≤ forwardCount pre) ∧
    backwardCount l = forwardCount l

/-- Tape allocation strategy (`cli::AllocStrategy`). -/
inductive AllocStrategy where
  | tapeCanGrow
  | tapeIsFixed
deriving DecidableEq, Repr

/-- Output format for cell values (`cli::OutputFormat`). -/
inductive OutputFormat where
  | asciiOutput
  | binaryOutput
deriving DecidableEq, Repr

/-- Runtime errors of the tape engine (`BfError` in
bft_interp/src/lib.rs). I/O failures cannot arise in the pure model of
the byte sinks, so `ioError` is never constructed. -/
inductive BfError where
  | dataPtrMovedBeforeStart (instruction : BfInstruction) (programPointer : Nat)
  | dataPtrMovedAfterEnd (instruction : BfInstruction) (programPointer : Nat)
  | programPtrMovedAfterEnd (instruction : BfInstruction) (programPointer : Nat)
  | bracketNotFound (programPointer : Nat)
  | ioError (instruction : BfInstruction) (programPointer : Nat)
deriving DecidableEq, Repr

/-- Default tape capacity (`MAX_TAPE_SIZE`). -/
def MAX_TAPE_SIZE : Nat := 30000

/-- The tape of a running BF program (`BfTape<u8>`), instantiated at the
`u8` cell kind used throughout the repository: cells are `Nat` values
kept below 256 with explicit wrapping. The debug level is always `None`
in the model (the debug branches of the Rust code only print). -/
structure BfTape where
  programPointer : Nat
  program : BfProgram
  dataPointer : Nat
  allocStrategy : AllocStrategy
  outputFormat : OutputFormat
  tape : List Nat
  newline : Bool
deriving DecidableEq, Repr

/-- Creation of a tape (`BfTape::new`): program and data pointers start
at 0 and the cells are default-initialized (zero); a requested size of 0
means the default capacity of 30,000 cells. -/
def BfTape.new (program : BfProgram) (tapeSize : Nat) (allocStrategy : AllocStrategy)
    (outputFormat : OutputFormat) : BfTape :=
  { programPointer := 0
    program := program
    dataPointer := 0
    allocStrategy := allocStrategy
    outputFormat := outputFormat
    tape :=
      if tapeSize = 0 then List.replicate MAX_TAPE_SIZE 0 else List.replicate tapeSize 0
    newline := false }

/-- The instruction at the current program pointer
(`BfTape::current_instruction`); the model totalizes the Rust index
expression with a default that is irrelevant while the program pointer is
in bounds. -/
def BfTape.currentInstruction (t : BfTape) : BfInstruction :=
  t.program.instructions.getD t.programPointer ⟨.comment, ⟨0, 0⟩⟩

/-- Value of the cell at the data pointer (`BfTape::get_data_value`). -/
def BfTape.getDataValue (t : BfTape) : Nat :=
  t.tape.getD t.dataPointer 0

/-- Move the data pointer forward (`BfTape::move_data_pointer_forward`):
at the last cell, a fixed tape fails with `DataPtrMovedAfterEnd` and a
growable tape is extended by one default cell; in either surviving case
the data pointer advances by one. -/
def BfTape.moveDataPointerForward (t : BfTape) : Except BfError BfTape :=
  if t.dataPointer = t.tape.length - 1 then
    match t.allocStrategy with
    | .tapeIsFixed =>
      .error (.dataPtrMovedAfterEnd t.currentInstruction t.programPointer)
    | .tapeCanGrow =>
      .ok { t with tape := t.tape ++ [0], dataPointer := t.dataPointer + 1 }
  else
    .ok { t with dataPointer := t.dataPointer + 1 }

/-- Move the data pointer backward (`BfTape::move_data_pointer_back`):
fails with `DataPtrMovedBeforeStart` at cell 0. -/
def BfTape.moveDataPointerBack (t : BfTape) : Except BfError BfTape :=
  if t.dataPointer = 0 then
    .error (.dataPtrMovedBeforeStart t.currentInstruction t.programPointer)
  else
    .ok { t with dataPointer := t.dataPointer - 1 }

/-- Increment the current cell (`BfTape::increment_data_value`), with u8
wrapping. -/
def BfTape.incrementDataValue (t : BfTape) : Except BfError BfTape :=
  .ok { t with tape := t.tape.set t.dataPointer ((t.getDataValue + 1) % 256) }

/-- Decrement the current cell (`BfTape::decrement_data_value`), with u8
wrapping (`wrapping_sub(1)` is addition of 255 modulo 256). -/
def BfTape.decrementDataValue (t : BfTape) : Except BfError BfTape :=
  .ok { t with tape := t.tape.set t.dataPointer ((t.getDataValue + 255) % 256) }

/-- Output the current cell (`BfTape::output_value`). The byte sink is a
list of written byte values; `BinaryOutput` writes the decimal digits of
the value followed by a comma, `AsciiOutput` writes the byte as-is and
records whether it was a newline. The pure sink never fails. -/
def BfTape.outputValue (t : BfTape) (writer : List Nat) :
    Except BfError (BfTape × List Nat) :=
  let data := t.getDataValue
  if t.outputFormat = .binaryOutput then
    .ok ({ t with newline := false },
      writer ++ (Nat.repr data).toList.map Char.toNat ++ [44])
  else
    .ok ({ t with newline := data = 10 }, writer ++ [data])

/-- Input one byte into the current cell (`BfTape::input_value`). The
byte source is a list of byte values; an exhausted source is end-of-input
(`read` returning 0 bytes), in which case the cell is set to `u8::MAX` =
255. Otherwise the one byte read is stored. The pure source never
fails. -/
def BfTape.inputValue (t : BfTape) (reader : List Nat) :
    Except BfError (BfTape × List Nat) :=
  match reader with
  | [] => .ok ({ t with tape := t.tape.set t.dataPointer 255 }, [])
  | b :: rest => .ok ({ t with tape := t.tape.set t.dataPointer (b % 256) }, rest)

/-- Linear scan for the first instruction at a given source location (the
inner `for (i, ins) in enumerate` loops of `jump_forward` and
`jump_backward`, which compare line and offset). -/
def locFind (loc : BfLocation) : List BfInstruction → Option Nat
  | [] => none
  | ins :: rest =>
    if ins.location.line = loc.line ∧ ins.location.offset = loc.offset then some 0
    else (locFind loc rest).map (· + 1)

/-- The pair-table scan of `BfTape::jump_forward`: find a pair whose
forward location matches the current location, then resolve the pair's
backward location to an instruction index; a matching pair whose backward
location resolves to no instruction is skipped and the scan continues. -/
def jumpForwardScan (cur : BfLocation) (instrs : List BfInstruction) :
    List BfJumpLocation → Option Nat
  | [] => none
  | jmp :: rest =>
    if jmp.forward.line = cur.line ∧ jmp.forward.offset = cur.offset then
      match locFind jmp.backward instrs with
      | some i => some i
      | none => jumpForwardScan cur instrs rest
    else jumpForwardScan cur instrs rest

/-- The pair-table scan of `BfTape::jump_backward`: symmetric to
`jumpForwardScan`, matching the pair's backward location and resolving
its forward location. -/
def jumpBackwardScan (cur : BfLocation) (instrs : List BfInstruction) :
    List BfJumpLocation → Option Nat
  | [] => none
  | jmp :: rest =>
    if jmp.backward.line = cur.line ∧ jmp.backward.offset = cur.offset then
      match locFind jmp.forward instrs with
      | some i => some i
      | none => jumpBackwardScan cur instrs rest
    else jumpBackwardScan cur instrs rest

/-- Conditional forward jump (`BfTape::jump_forward`): when the current
cell is zero, set the program pointer to the instruction index of the
matching backward bracket (the uniform +1 applied after every command
then lands just past it); `BracketNotFound` when the scan fails. When the
cell is non-zero nothing changes. -/
def BfTape.jumpForward (t : BfTape) : Except BfError BfTape :=
  if t.getDataValue = 0 then
    match jumpForwardScan t.currentInstruction.location t.program.instructions
        t.program.jumpLocations with
    | some i => .ok { t with programPointer := i }
    | none => .error (.bracketNotFound t.programPointer)
  else
    .ok t

/-- Conditional backward jump (`BfTape::jump_backward`): when the current
cell is non-zero, set the program pointer to the instruction index of the
matching forward bracket; `BracketNotFound` when the scan fails. When the
cell is zero nothing changes. -/
def BfTape.jumpBackward (t : BfTape) : Except BfError BfTape :=
  if t.getDataValue ≠ 0 then
    match jumpBackwardScan t.currentInstruction.location t.program.instructions
        t.program.jumpLocations with
    | some i => .ok { t with programPointer := i }
    | none => .error (.bracketNotFound t.programPointer)
  else
    .ok t

/-- Advance the program pointer by one after an instruction: the uniform
`self.program_pointer += 1; Ok(self.program_pointer)` tail of every
`command_*` method. -/
def BfTape.advance (t : BfTape) : BfTape :=
  { t with programPointer := t.programPointer + 1 }

/-- The `command_inc_value` method: increment then advance. -/
def BfTape.commandIncValue (t : BfTape) : Except BfError BfTape := do
  let t ← t.incrementDataValue
  .ok t.advance

/-- The `command_dec_value` method: decrement then advance. -/
def BfTape.commandDecValue (t : BfTape) : Except BfError BfTape := do
  let t ← t.decrementDataValue
  .ok t.advance

/-- The `command_move_pointer_forward` method: move right then advance. -/
def BfTape.commandMovePointerForward (t : BfTape) : Except BfError BfTape := do
  let t ← t.moveDataPointerForward
  .ok t.advance

/-- The `command_move_pointer_back` method: move left then advance. -/
def BfTape.commandMovePointerBack (t : BfTape) : Except BfError BfTape := do
  let t ← t.moveDataPointerBack
  .ok t.advance

/-- The `command_input_value` method: input then advance. -/
def BfTape.commandInputValue (t : BfTape) (reader : List Nat) :
    Except BfError (BfTape × List Nat) := do
  let (t, reader) ← t.inputValue reader
  .ok (t.advance, reader)

/-- The `command_output_value` method: output then advance. -/
def BfTape.commandOutputValue (t : BfTape) (writer : List Nat) :
    Except BfError (BfTape × List Nat) := do
  let (t, writer) ← t.outputValue writer
  .ok (t.advance, writer)

/-- The `command_jump_forward` method: conditional jump then advance. -/
def BfTape.commandJumpForward (t : BfTape) : Except BfError BfTape := do
  let t ← t.jumpForward
  .ok t.advance

/-- The `command_jump_backward` method: conditional jump then advance. -/
def BfTape.commandJumpBackward (t : BfTape) : Except BfError BfTape := do
  let t ← t.jumpBackward
  .ok t.advance

/-- Reasons the modelled execution loop stops other than normal halting:
a typed `BfError`, the `todo!()` on the `Comment` dispatch arm (a Rust
panic), an out-of-bounds instruction fetch (a Rust index panic), or
exhaustion of the step budget of the fuelled model. -/
inductive RunStop where
  | err (e : BfError)
  | panicTodo
  | panicIndex
  | outOfFuel
deriving DecidableEq, Repr

/-- One iteration of the `interpreter` while-loop: fetch the instruction
at the program pointer and dispatch on its command. The `Comment` arm is
`todo!()` in the Rust source and is modelled as the `panicTodo` stop. -/
def BfTape.step (t : BfTape) (reader writer : List Nat) :
    Except RunStop (BfTape × List Nat × List Nat) :=
  match t.program.instructions.get? t.programPointer with
  | none => .error .panicIndex
  | some inst =>
    match inst.command with
    | .comment => .error .panicTodo
    | .incDataPointer =>
      (t.commandMovePointerForward.map (fun t' => (t', reader, writer))).mapError .err
    | .decDataPointer =>
      (t.commandMovePointerBack.map (fun t' => (t', reader, writer))).mapError .err
    | .incValue =>
      (t.commandIncValue.map (fun t' => (t', reader, writer))).mapError .err
    | .decValue =>
      (t.commandDecValue.map (fun t' => (t', reader, writer))).mapError .err
    | .outputValue =>
      ((t.commandOutputValue writer).map (fun x => (x.1, reader, x.2))).mapError .err
    | .inputValue =>
      ((t.commandInputValue reader).map (fun x => (x.1, x.2, writer))).mapError .err
    | .jumpForward =>
      (t.commandJumpForward.map (fun t' => (t', reader, writer))).mapError .err
    | .jumpBackward =>
      (t.commandJumpBackward.map (fun t' => (t', reader, writer))).mapError .err

/-- The `interpreter` while-loop with explicit fuel: run steps until the
program pointer equals the instruction count (the halted state), an error
or panic stops execution, or the fuel runs out. -/
def BfTape.run (fuel : Nat) (t : BfTape) (reader writer : List Nat) :
    Except RunStop (BfTape × List Nat × List Nat) :=
  match fuel with
  | 0 =>
    if t.programPointer = t.program.instructions.length then .ok (t, reader, writer)
    else .error .outOfFuel
  | fuel + 1 =>
    if t.programPointer = t.program.instructions.length then .ok (t, reader, writer)
    else
      match t.step reader writer with
      | .ok (t', reader', writer') => BfTape.run fuel t' reader' writer'
      | .error e => .error e

/-! Helper lemmas. -/

/-- Setting an in-bounds cell and reading it back yields the new value. -/
theorem getD_set_self (l : List Nat) (i a d : Nat) (h : i < l.length) :
    (l.set i a).getD i d = a := by
  induction l generalizing i with
  | nil => simp at h
  | cons x xs ih =>
    cases i with
    | zero => rfl
    | succ j =>
      show (xs.set j a).getD j d = a
      exact ih j (by simpa using Nat.lt_of_succ_lt_succ h)

/-! Claim theorems. -/

/-- C3: the program "+++[>+<-]" run from an all-zero tape terminates --
the execution loop returns normally with the program pointer equal to the
instruction count (9) -- with cell 0 holding 0 and cell 1 holding 3. -/
theorem c3_loop_program_terminates :
    (let p := ((BfProgram.new "t" (String.toList ("+++[>+<-]"))).validate).fst
     let t := BfTape.new p 5 .tapeIsFixed .asciiOutput
     p.instructions.length = 9 ∧
       (BfTape.run 100 t [] []).toOption.map
           (fun x => (x.1.programPointer, x.1.tape.getD 0 0, x.1.tape.getD 1 0)) =
         some (9, 0, 3)) := by
  exact ⟨rfl, rfl⟩

/-- C7: with the data pointer at the last valid tape index,
move-pointer-right fails under the Fixed policy with
`DataPtrMovedAfterEnd` carrying the current program pointer and
instruction, and under CanGrow appends exactly one default cell and
advances the data pointer; concretely, on a Fixed tape of length 1 a
single `>` at data pointer 0 fails, while under CanGrow it succeeds and
the tape length becomes 2. -/
theorem c7_move_right_at_end :
    (∀ t : BfTape, 1 ≤ t.tape.length → t.dataPointer = t.tape.length - 1 →
      (t.allocStrategy = .tapeIsFixed →
        t.moveDataPointerForward =
          .error (.dataPtrMovedAfterEnd t.currentInstruction t.programPointer)) ∧
      (t.allocStrategy = .tapeCanGrow →
        t.moveDataPointerForward =
          .ok { t with tape := t.tape ++ [0], dataPointer := t.dataPointer + 1 } ∧
        (t.tape ++ [0]).length = t.tape.length + 1)) ∧
    (let p := ((BfProgram.new "t" (String.toList (">"))).validate).fst
     BfTape.run 10 (BfTape.new p 1 .tapeIsFixed .asciiOutput) [] [] =
       .error (.err (.dataPtrMovedAfterEnd ⟨.incDataPointer, ⟨1, 1⟩⟩ 0)) ∧
     (BfTape.run 10 (BfTape.new p 1 .tapeCanGrow .asciiOutput) [] []).toOption.map
         (fun x => (x.1.tape.length, x.1.dataPointer)) =
       some (2, 1)) := by
  refine ⟨?_, rfl, rfl⟩
  intro t _ hdp
  constructor
  · intro hfix
    simp [BfTape.moveDataPointerForward, hdp, hfix]
  · intro hgrow
    simp [BfTape.moveDataPointerForward, hdp, hgrow]

/-- Witness for C7 at a concrete engine state: a fixed tape of length 1
with the data pointer at the last index. -/
theorem c7_move_right_at_end_witness :
    (let p := BfProgram.new "t" (String.toList (">"))
     let t := BfTape.new p 1 .tapeIsFixed .asciiOutput
     t.moveDataPointerForward =
       .error (.dataPtrMovedAfterEnd t.currentInstruction t.programPointer)) :=
  (c7_move_right_at_end.1 (BfTape.new (BfProgram.new "t" (String.toList (">"))) 1
      .tapeIsFixed .asciiOutput) (by decide) (by decide)).1 rfl

/-- C8: executing input-cell against an exhausted input source succeeds
and sets the current cell to the maximum representable value 255; against
a source yielding a byte, exactly that byte is stored in the current
cell. -/
theorem c8_input_eof_sentinel (t : BfTape) (h : t.dataPointer < t.tape.length) :
    (∃ t', t.inputValue [] = .ok (t', []) ∧
      t' = { t with tape := t.tape.set t.dataPointer 255 } ∧ t'.getDataValue = 255) ∧
    (∀ b rest, b < 256 →
      ∃ t', t.inputValue (b :: rest) = .ok (t', rest) ∧
        t' = { t with tape := t.tape.set t.dataPointer b } ∧ t'.getDataValue = b) := by
  constructor
  · refine ⟨_, rfl, rfl, ?_⟩
    show (t.tape.set t.dataPointer 255).getD t.dataPointer 0 = 255
    exact getD_set_self _ _ _ _ h
  · intro b rest hb
    refine ⟨_, rfl, ?_, ?_⟩
    · simp [BfTape.inputValue, Nat.mod_eq_of_lt hb]
    · show (t.tape.set t.dataPointer (b % 256)).getD t.dataPointer 0 = b
      rw [Nat.mod_eq_of_lt hb]
      exact getD_set_self _ _ _ _ h

/-- Witness for C8 at a concrete engine state: a fresh 3-cell tape, an
exhausted source and a source yielding the byte 55. -/
theorem c8_input_eof_sentinel_witness :
    (let t := BfTape.new (BfProgram.new "t" (String.toList (","))) 3 .tapeIsFixed .asciiOutput
     (∃ t', t.inputValue [] = .ok (t', []) ∧
       t' = { t with tape := t.tape.set t.dataPointer 255 } ∧ t'.getDataValue = 255) ∧
     (∃ t', t.inputValue [55] = .ok (t', []) ∧
       t' = { t with tape := t.tape.set t.dataPointer 55 } ∧ t'.getDataValue = 55)) := by
  have h := c8_input_eof_sentinel
    (BfTape.new (BfProgram.new "t" (String.toList (","))) 3 .tapeIsFixed .asciiOutput)
    (by decide)
  exact ⟨h.1, h.2 55 [] (by decide)⟩

/-- Unfolding: the loop pushes a forward bracket onto the stack. -/
theorem validateLoop_cons_forward (i : BfInstruction) (rest st : List BfInstruction)
    (pr : List BfJumpLocation) (hf : i.command = .jumpForward) :
    validateLoop (i :: rest) st pr = validateLoop rest (i :: st) pr := by
  simp [validateLoop, hf]

/-- Unfolding: a backward bracket with an empty stack fails immediately. -/
theorem validateLoop_cons_backward_nil (i : BfInstruction) (rest : List BfInstruction)
    (pr : List BfJumpLocation) (hb : i.command = .jumpBackward) :
    validateLoop (i :: rest) [] pr = .error (pr, i) := by
  have hf : ¬ i.command = .jumpForward := by rw [hb]; intro hc; cases hc
  simp [validateLoop, hf, hb]

/-- Unfolding: a backward bracket pops the top of the stack and records a
pair. -/
theorem validateLoop_cons_backward_cons (i s : BfInstruction)
    (rest st' : List BfInstruction) (pr : List BfJumpLocation)
    (hb : i.command = .jumpBackward) :
    validateLoop (i :: rest) (s :: st') pr =
      validateLoop rest st' (pr ++ [⟨st'.length, s.location, i.location⟩]) := by
  have hf : ¬ i.command = .jumpForward := by rw [hb]; intro hc; cases hc
  simp [validateLoop, hf, hb]

/-- Unfolding: any other instruction leaves the loop state unchanged. -/
theorem validateLoop_cons_other (i : BfInstruction) (rest st : List BfInstruction)
    (pr : List BfJumpLocation) (hf : ¬ i.command = .jumpForward)
    (hb : ¬ i.command = .jumpBackward) :
    validateLoop (i :: rest) st pr = validateLoop rest st pr := by
  simp [validateLoop, hf, hb]

/-- The validation loop threads its pairs accumulator additively: running
it with initial pairs `pr` yields the run with empty initial pairs, with
`pr` prepended to the resulting table in both the success and the error
outcome. -/
theorem validateLoop_pairs (l st : List BfInstruction) (pr : List BfJumpLocation) :
    validateLoop l st pr =
      match validateLoop l st [] with
      | .ok (st', pr') => .ok (st', pr ++ pr')
      | .error (pr', i) => .error (pr ++ pr', i) := by
  induction l generalizing st pr with
  | nil => simp [validateLoop]
  | cons i rest ih =>
    by_cases hf : i.command = .jumpForward
    · rw [validateLoop_cons_forward _ _ _ _ hf, validateLoop_cons_forward _ _ _ _ hf, ih]
    · by_cases hb : i.command = .jumpBackward
      · cases st with
        | nil =>
          rw [validateLoop_cons_backward_nil _ _ _ hb,
            validateLoop_cons_backward_nil _ _ _ hb]
          simp
        | cons s st' =>
          rw [validateLoop_cons_backward_cons _ _ _ _ _ hb,
            validateLoop_cons_backward_cons _ _ _ _ _ hb]
          conv_lhs => rw [ih]
          conv_rhs => rw [ih]
          cases hv : validateLoop rest st' [] with
          | ok x => cases x; simp
          | error e => cases e; simp
      · rw [validateLoop_cons_other _ _ _ _ hf hb, validateLoop_cons_other _ _ _ _ hf hb,
          ih]

/-- Validation leaves the instruction sequence (and the filename) of the
program unchanged; only the jump-location table is updated. -/
theorem validate_instructions (p : BfProgram) :
    (p.validate).fst.instructions = p.instructions ∧
      (p.validate).fst.filename = p.filename := by
  unfold BfProgram.validate
  cases hv : validateLoop p.instructions [] p.jumpLocations with
  | ok x =>
    cases x with
    | mk st pr => cases st <;> exact ⟨rfl, rfl⟩
  | error e => cases e; exact ⟨rfl, rfl⟩

/-- The success or failure of validation, and the reported instruction,
depend only on the instruction sequence, not on the initial
jump-location table. -/
theorem validate_snd_eq (p : BfProgram) :
    (p.validate).snd =
      (match validateLoop p.instructions [] [] with
        | .error (_, i) => some i
        | .ok (stack, _) => stack.head?) := by
  unfold BfProgram.validate
  rw [validateLoop_pairs]
  cases hv : validateLoop p.instructions [] [] with
  | ok x =>
    cases x with
    | mk st pr => cases st <;> rfl
  | error e => cases e; rfl

/-- The jump-location table after validation is the table the program
already had, followed by the pairs found by this pass (also when the pass
fails partway). -/
theorem validate_fst_jumpLocations (p : BfProgram) :
    (p.validate).fst.jumpLocations =
      p.jumpLocations ++
        (match validateLoop p.instructions [] [] with
          | .ok (_, pr) => pr
          | .error (pr, _) => pr) := by
  unfold BfProgram.validate
  rw [validateLoop_pairs]
  cases hv : validateLoop p.instructions [] [] with
  | ok x =>
    cases x with
    | mk st pr => cases st <;> rfl
  | error e => cases e; rfl

/-- Counterexample to C4 as stated: for the program "[]" the second call
to validate does not leave the bracket-pair table identical -- it appends
the pair again, so the table has two entries instead of one. -/
theorem c4_counterexample :
    ¬ (let p := BfProgram.new "t" (String.toList ("[]"))
       ((p.validate).fst.validate).fst.jumpLocations = (p.validate).fst.jumpLocations ∧
         ((p.validate).fst.validate).snd = (p.validate).snd) := by
  decide

/-- C4 amended: validating twice yields the same result value as
validating once (success or the same offending instruction), but not the
same bracket-pair table: `validate` never clears `self.jump_locations`,
so on a successfully validated program the second call appends the pairs
again, leaving the table equal to the single-validation table followed by
a second copy of itself. -/
theorem c4_validate_twice (p : BfProgram) (h : p.jumpLocations = []) :
    ((p.validate).fst.validate).snd = (p.validate).snd ∧
      ((p.validate).fst.validate).fst.jumpLocations =
        (p.validate).fst.jumpLocations ++ (p.validate).fst.jumpLocations := by
  constructor
  · rw [validate_snd_eq, validate_snd_eq, (validate_instructions p).1]
  · rw [validate_fst_jumpLocations ((p.validate).fst), (validate_instructions p).1,
      validate_fst_jumpLocations p, h]
    simp

/-- Witness for C4 amended at the concrete program "[]": same result,
doubled table. -/
theorem c4_validate_twice_witness :
    (let p := BfProgram.new "t" (String.toList ("[]"))
     ((p.validate).fst.validate).snd = (p.validate).snd ∧
       ((p.validate).fst.validate).fst.jumpLocations =
         (p.validate).fst.jumpLocations ++ (p.validate).fst.jumpLocations) :=
  c4_validate_twice (BfProgram.new "t" (String.toList ("[]"))) rfl

/-- C10: a fresh engine starts with all cells zero, data pointer 0,
program pointer 0, and tape length 30000 when the requested size is 0 and
exactly the requested size otherwise; and every successful step of the
execution loop keeps the data pointer strictly below the tape length,
while the tape length changes only for move-pointer-right at the last
cell under CanGrow, which grows it by exactly one cell. -/
theorem c10_tape_invariants :
    (∀ p size strat fmt,
      (BfTape.new p size strat fmt).dataPointer = 0 ∧
      (BfTape.new p size strat fmt).programPointer = 0 ∧
      (∀ c ∈ (BfTape.new p size strat fmt).tape, c = 0) ∧
      (BfTape.new p size strat fmt).tape.length = (if size = 0 then 30000 else size)) ∧
    (∀ (t t' : BfTape) r w r' w', t.dataPointer < t.tape.length →
      t.step r w = .ok (t', r', w') →
      t'.dataPointer < t'.tape.length ∧
      (t'.tape.length = t.tape.length ∨
        (t'.tape.length = t.tape.length + 1 ∧ t.allocStrategy = .tapeCanGrow ∧
          t.dataPointer = t.tape.length - 1 ∧
          (∃ inst, t.program.instructions.get? t.programPointer = some inst ∧
            inst.command = .incDataPointer)))) := by
  constructor
  · intro p size strat fmt
    refine ⟨rfl, rfl, ?_, ?_⟩
    · intro c hc
      have hc' : c ∈ (if size = 0 then List.replicate MAX_TAPE_SIZE 0
          else List.replicate size 0) := hc
      by_cases hs : size = 0
      · rw [if_pos hs] at hc'
        exact List.eq_of_mem_replicate hc'
      · rw [if_neg hs] at hc'
        exact List.eq_of_mem_replicate hc'
    · show (if size = 0 then List.replicate MAX_TAPE_SIZE 0
          else List.replicate size 0).length = _
      by_cases hs : size = 0
      · rw [hs]
        rw [if_pos rfl, if_pos rfl, List.length_replicate, MAX_TAPE_SIZE]
      · rw [if_neg hs, if_neg hs, List.length_replicate]
  · intro t t' r w r' w' hdp hstep
    unfold BfTape.step at hstep
    split at hstep
    · exact absurd hstep (by simp)
    · rename_i inst hfetch
      split at hstep
      -- comment
      · exact absurd hstep (by simp)
      -- incDataPointer
      · rename_i hc
        by_cases hend : t.dataPointer = t.tape.length - 1
        · cases hstrat : t.allocStrategy with
          | tapeIsFixed =>
            simp [BfTape.commandMovePointerForward, BfTape.moveDataPointerForward,
              hend, hstrat, Except.map, Except.mapError, Bind.bind, Except.bind] at hstep
          | tapeCanGrow =>
            simp [BfTape.commandMovePointerForward, BfTape.moveDataPointerForward,
              hend, hstrat, Except.map, Except.mapError, Bind.bind, Except.bind,
              BfTape.advance] at hstep
            obtain ⟨ht', _, _⟩ := hstep
            subst ht'
            refine ⟨by simp; omega, .inr ⟨by simp, rfl, hend, inst, hfetch, hc⟩⟩
        · simp [BfTape.commandMovePointerForward, BfTape.moveDataPointerForward,
            hend, Except.map, Except.mapError, Bind.bind, Except.bind,
            BfTape.advance] at hstep
          obtain ⟨ht', _, _⟩ := hstep
          subst ht'
          exact ⟨by simp; omega, .inl (by simp)⟩
      -- decDataPointer
      · by_cases h0 : t.dataPointer = 0
        · simp [BfTape.commandMovePointerBack, BfTape.moveDataPointerBack,
            h0, Except.map, Except.mapError, Bind.bind, Except.bind] at hstep
        · simp [BfTape.commandMovePointerBack, BfTape.moveDataPointerBack,
            h0, Except.map, Except.mapError, Bind.bind, Except.bind,
            BfTape.advance] at hstep
          obtain ⟨ht', _, _⟩ := hstep
          subst ht'
          exact ⟨by simp; omega, .inl (by simp)⟩
      -- incValue
      · simp [BfTape.commandIncValue, BfTape.incrementDataValue,
          Except.map, Except.mapError, Bind.bind, Except.bind, BfTape.advance] at hstep
        obtain ⟨ht', _, _⟩ := hstep
        subst ht'
        exact ⟨by simpa using hdp, .inl (by simp)⟩
      -- decValue
      · simp [BfTape.commandDecValue, BfTape.decrementDataValue,
          Except.map, Except.mapError, Bind.bind, Except.bind, BfTape.advance] at hstep
        obtain ⟨ht', _, _⟩ := hstep
        subst ht'
        exact ⟨by simpa using hdp, .inl (by simp)⟩
      -- outputValue
      · by_cases hfmt : t.outputFormat = .binaryOutput <;>
          simp [BfTape.commandOutputValue, BfTape.outputValue, hfmt,
            Except.map, Except.mapError, Bind.bind, Except.bind, BfTape.advance] at hstep <;>
          obtain ⟨ht', _, _⟩ := hstep <;> subst ht' <;>
          exact ⟨by simpa using hdp, .inl (by simp)⟩
      -- inputValue
      · cases r with
        | nil =>
          simp [BfTape.commandInputValue, BfTape.inputValue,
            Except.map, Except.mapError, Bind.bind, Except.bind, BfTape.advance] at hstep
          obtain ⟨ht', _, _⟩ := hstep
          subst ht'
          exact ⟨by simpa using hdp, .inl (by simp)⟩
        | cons b bs =>
          simp [BfTape.commandInputValue, BfTape.inputValue,
            Except.map, Except.mapError, Bind.bind, Except.bind, BfTape.advance] at hstep
          obtain ⟨ht', _, _⟩ := hstep
          subst ht'
          exact ⟨by simpa using hdp, .inl (by simp)⟩
      -- jumpForward
      · by_cases hz : t.getDataValue = 0
        · cases hscan : jumpForwardScan t.currentInstruction.location
              t.program.instructions t.program.jumpLocations with
          | none =>
            simp [BfTape.commandJumpForward, BfTape.jumpForward, hz, hscan,
              Except.map, Except.mapError, Bind.bind, Except.bind] at hstep
          | some i =>
            simp [BfTape.commandJumpForward, BfTape.jumpForward, hz, hscan,
              Except.map, Except.mapError, Bind.bind, Except.bind, BfTape.advance] at hstep
            obtain ⟨ht', _, _⟩ := hstep
            subst ht'
            exact ⟨by simpa using hdp, .inl (by simp)⟩
        · simp [BfTape.commandJumpForward, BfTape.jumpForward, hz,
            Except.map, Except.mapError, Bind.bind, Except.bind, BfTape.advance] at hstep
          obtain ⟨ht', _, _⟩ := hstep
          subst ht'
          exact ⟨by simpa using hdp, .inl (by simp)⟩
      -- jumpBackward
      · by_cases hz : t.getDataValue = 0
        · simp [BfTape.commandJumpBackward, BfTape.jumpBackward, hz,
            Except.map, Except.mapError, Bind.bind, Except.bind, BfTape.advance] at hstep
          obtain ⟨ht', _, _⟩ := hstep
          subst ht'
          exact ⟨by simpa using hdp, .inl (by simp)⟩
        · cases hscan : jumpBackwardScan t.currentInstruction.location
              t.program.instructions t.program.jumpLocations with
          | none =>
            simp [BfTape.commandJumpBackward, BfTape.jumpBackward, hz, hscan,
              Except.map, Except.mapError, Bind.bind, Except.bind] at hstep
          | some i =>
            simp [BfTape.commandJumpBackward, BfTape.jumpBackward, hz, hscan,
              Except.map, Except.mapError, Bind.bind, Except.bind, BfTape.advance] at hstep
            obtain ⟨ht', _, _⟩ := hstep
            subst ht'
            exact ⟨by simpa using hdp, .inl (by simp)⟩

/-- Witness for C10 at a concrete step: executing the `+` of the program
"+" on a fresh fixed three-cell tape keeps the data pointer below the
tape length. -/
theorem c10_tape_invariants_witness :
    (let p := BfProgram.new "t" (String.toList ("+"))
     let t := BfTape.new p 3 .tapeIsFixed .asciiOutput
     let t' : BfTape :=
       { programPointer := 1, program := p, dataPointer := 0,
         allocStrategy := .tapeIsFixed, outputFormat := .asciiOutput,
         tape := [1, 0, 0], newline := false }
     t.step [] [] = .ok (t', [], []) ∧ t'.dataPointer < t'.tape.length) := by
  refine ⟨rfl, ?_⟩
  exact (c10_tape_invariants.2
    (BfTape.new (BfProgram.new "t" (String.toList ("+"))) 3 .tapeIsFixed .asciiOutput)
    { programPointer := 1, program := BfProgram.new "t" (String.toList ("+")),
      dataPointer := 0, allocStrategy := .tapeIsFixed, outputFormat := .asciiOutput,
      tape := [1, 0, 0], newline := false }
    [] [] [] [] (by decide) rfl).1

/-- Helper: parsing a list of lines whose first line starts at an
arbitrary column (the tail lines always restart at column 1). -/
def parseFirst (lineNo charPos : Nat) : List (List Char) → List BfInstruction
  | [] => []
  | l :: rest => parseLine lineNo charPos l ++ parseLines (lineNo + 1) rest

/-- Evaluation: the carriage-return character is not a command. -/
theorem fromChar_cr : BfCommand.fromChar '\x0d' = none := rfl

/-- Evaluation: the newline character is not a command. -/
theorem fromChar_nl : BfCommand.fromChar '\n' = none := rfl

/-- Parsing lines is parsing with the first line starting at column 1. -/
theorem parseLines_eq_parseFirst (ln : Nat) (ls : List (List Char)) :
    parseLines ln ls = parseFirst ln 1 ls := by
  cases ls <;> rfl

/-- A text with no lines is the empty text. -/
theorem rustLines_eq_nil (s : List Char) (h : rustLines s = []) : s = [] := by
  induction s using rustLines.induct with
  | case1 => rfl
  | case2 rest ih => rw [rustLines.eq_2] at h; cases h
  | case3 rest ih => rw [rustLines.eq_3] at h; cases h
  | case4 c rest h1 h2 hnil ih => rw [rustLines.eq_4 c rest h1 h2, hnil] at h; cases h
  | case5 c rest h1 h2 l ls heq ih =>
    rw [rustLines.eq_4 c rest h1 h2, heq] at h; cases h

/-- The line-by-line parse of `BfProgram::new` agrees with the
specification-side character walk: parsing the split lines yields exactly
the located-character `filterMap`. -/
theorem parseFirst_rustLines (s : List Char) :
    ∀ ln col, parseFirst ln col (rustLines s) =
      (locatedChars ln col s).filterMap instOfLocated := by
  induction s using rustLines.induct with
  | case1 => intro ln col; rfl
  | case2 rest ih =>
    intro ln col
    rw [rustLines.eq_2]
    show parseLine ln col [] ++ parseLines (ln + 1) (rustLines rest) = _
    rw [parseLines_eq_parseFirst, ih]
    simp [parseLine, locatedChars, List.filterMap_cons, instOfLocated, fromChar_cr,
      fromChar_nl]
  | case3 rest ih =>
    intro ln col
    rw [rustLines.eq_3]
    show parseLine ln col [] ++ parseLines (ln + 1) (rustLines rest) = _
    rw [parseLines_eq_parseFirst, ih]
    simp [parseLine, locatedChars, List.filterMap_cons, instOfLocated, fromChar_nl]
  | case4 c rest h1 h2 hnil ih =>
    intro ln col
    have hrest : rest = [] := rustLines_eq_nil rest hnil
    have hcn : ¬ c = '\n' := fun h => h2 h
    subst hrest
    rw [rustLines.eq_4 c [] h1 h2]
    cases hfc : BfCommand.fromChar c <;>
      simp [rustLines, parseFirst, parseLine, parseLines, locatedChars,
        List.filterMap_cons, instOfLocated, hfc, hcn]
  | case5 c rest h1 h2 l ls heq ih =>
    intro ln col
    have hcn : ¬ c = '\n' := fun h => h2 h
    have ih' := ih ln (col + 1)
    rw [heq] at ih'
    simp only [parseFirst] at ih'
    rw [rustLines.eq_4 c rest h1 h2, heq]
    cases hfc : BfCommand.fromChar c <;>
      simp [parseFirst, parseLine, locatedChars, List.filterMap_cons, instOfLocated,
        hfc, hcn, ih']

/-- C6: for every identifier and source text, parse succeeds (the Rust
body ends in an unconditional `Ok`); the resulting instruction sequence
is exactly the in-order `filterMap` of the located characters, so every
character outside the eight command characters contributes zero
instructions, recognized characters appear in source order, the line
number starts at 1 and increments on each newline, and the column starts
at 1 per line and advances for every character; the empty text yields a
zero-length instruction sequence. -/
theorem c6_parse_never_fails :
    ∀ (filename : String) (text : List Char),
      BfProgram.newResult filename text = some (BfProgram.new filename text) ∧
      (BfProgram.new filename text).instructions = specInstructions text ∧
      (BfProgram.new filename []).instructions = [] := by
  intro f text
  refine ⟨rfl, ?_, rfl⟩
  show parseLines 1 (rustLines text) = _
  rw [parseLines_eq_parseFirst]
  exact parseFirst_rustLines text 1 1

/-- Helper: successful loop outcome with an empty final stack (the
condition under which `validate` returns `Ok(())`). -/
def loopOk :
    Except (List BfJumpLocation × BfInstruction) (List BfInstruction × List BfJumpLocation) →
      Prop
  | .ok (st, _) => st = []
  | .error _ => False

/-- Counting forward brackets over a cons. -/
theorem forwardCount_cons (i : BfInstruction) (l : List BfInstruction) :
    forwardCount (i :: l) =
      forwardCount l + (if i.command = .jumpForward then 1 else 0) := by
  simp [forwardCount, List.countP_cons]

/-- Counting backward brackets over a cons. -/
theorem backwardCount_cons (i : BfInstruction) (l : List BfInstruction) :
    backwardCount (i :: l) =
      backwardCount l + (if i.command = .jumpBackward then 1 else 0) := by
  simp [backwardCount, List.countP_cons]

/-- The prefix condition over a cons shifts to the tail. -/
theorem prefix_cond_cons (i : BfInstruction) (rest : List BfInstruction) (k : Nat) :
    (∀ pre post, i :: rest = pre ++ post →
        backwardCount pre ≤ k + forwardCount pre) ↔
      (∀ pre post, rest = pre ++ post →
        backwardCount (i :: pre) ≤ k + forwardCount (i :: pre)) := by
  constructor
  · intro H pre post hsplit
    exact H (i :: pre) post (by rw [hsplit]; rfl)
  · intro H pre post hsplit
    cases pre with
    | nil => simp [backwardCount]
    | cons a pre' =>
      injection hsplit with h1 h2
      subst h1
      exact H pre' post h2

/-- The validation loop succeeds with an empty final stack exactly when
the remaining instructions, seen from a stack of pending forward brackets
of length `k`, are balanced: no prefix closes more brackets than `k` plus
the brackets the prefix opens, and in total the closings equal `k` plus
the openings. -/
theorem validateLoop_ok_iff (l : List BfInstruction) :
    ∀ (st : List BfInstruction) (pr : List BfJumpLocation),
      loopOk (validateLoop l st pr) ↔
        ((∀ pre post, l = pre ++ post →
            backwardCount pre ≤ st.length + forwardCount pre) ∧
          backwardCount l = st.length + forwardCount l) := by
  induction l with
  | nil =>
    intro st pr
    show loopOk (.ok (st, pr)) ↔ _
    constructor
    · intro h
      have h' : st = [] := h
      subst h'
      exact ⟨fun pre post hpre => by
          have : pre = [] := (List.append_eq_nil.mp hpre.symm).1
          subst this
          simp [backwardCount, forwardCount],
        by simp [backwardCount, forwardCount]⟩
    · intro ⟨_, heq⟩
      have hb : backwardCount [] = 0 := by simp [backwardCount]
      have hf : forwardCount [] = 0 := by simp [forwardCount]
      rw [hb, hf] at heq
      show st = []
      exact List.eq_nil_of_length_eq_zero (by omega)
  | cons i rest ih =>
    intro st pr
    by_cases hf : i.command = .jumpForward
    · have hb : ¬ i.command = .jumpBackward := by rw [hf]; intro hc; cases hc
      rw [validateLoop_cons_forward _ _ _ _ hf, ih, prefix_cond_cons,
        backwardCount_cons, forwardCount_cons]
      simp only [hf, hb, if_pos, if_neg, if_true, if_false]
      constructor
      · intro ⟨hpre, heq⟩
        refine ⟨?_, by simp at heq ⊢; omega⟩
        intro pre post hsplit
        have := hpre pre post hsplit
        rw [backwardCount_cons, forwardCount_cons]
        simp only [hf, hb, if_pos, if_neg, if_true, if_false]
        simp at this ⊢
        omega
      · intro ⟨hpre, heq⟩
        refine ⟨?_, by simp at heq ⊢; omega⟩
        intro pre post hsplit
        have := hpre pre post hsplit
        rw [backwardCount_cons, forwardCount_cons] at this
        simp only [hf, hb, if_pos, if_neg, if_true, if_false] at this
        simp at this ⊢
        omega
    · by_cases hbk : i.command = .jumpBackward
      · cases st with
        | nil =>
          rw [validateLoop_cons_backward_nil _ _ _ hbk]
          show False ↔ _
          constructor
          · intro h; cases h
          · intro ⟨hpre, _⟩
            have := hpre [i] rest rfl
            rw [backwardCount_cons, forwardCount_cons] at this
            simp only [hbk, hf, if_pos, if_neg, if_true, if_false] at this
            simp [backwardCount, forwardCount] at this
        | cons s st' =>
          rw [validateLoop_cons_backward_cons _ _ _ _ _ hbk, ih, prefix_cond_cons,
            backwardCount_cons, forwardCount_cons]
          simp only [hbk, hf, if_pos, if_neg, if_true, if_false]
          constructor
          · intro ⟨hpre, heq⟩
            refine ⟨?_, by simp at heq ⊢; omega⟩
            intro pre post hsplit
            have := hpre pre post hsplit
            rw [backwardCount_cons, forwardCount_cons]
            simp only [hbk, hf, if_pos, if_neg, if_true, if_false]
            simp at this ⊢
            omega
          · intro ⟨hpre, heq⟩
            refine ⟨?_, by simp at heq ⊢; omega⟩
            intro pre post hsplit
            have := hpre pre post hsplit
            rw [backwardCount_cons, forwardCount_cons] at this
            simp only [hbk, hf, if_pos, if_neg, if_true, if_false] at this
            simp at this ⊢
            omega
      · rw [validateLoop_cons_other _ _ _ _ hf hbk, ih, prefix_cond_cons,
          backwardCount_cons, forwardCount_cons]
        simp only [hf, hbk, if_neg, if_false]
        constructor
        · intro ⟨hpre, heq⟩
          refine ⟨?_, by simp at heq ⊢; omega⟩
          intro pre post hsplit
          have := hpre pre post hsplit
          rw [backwardCount_cons, forwardCount_cons]
          simp only [hf, hbk, if_neg, if_false]
          simp at this ⊢
          omega
        · intro ⟨hpre, heq⟩
          refine ⟨?_, by simp at heq ⊢; omega⟩
          intro pre post hsplit
          have := hpre pre post hsplit
          rw [backwardCount_cons, forwardCount_cons] at this
          simp only [hf, hbk, if_neg, if_false] at this
          simp at this ⊢
          omega

/-- On a successful pass, the loop records one pair per backward bracket,
and the final stack size balances the bracket counts. -/
theorem validateLoop_counts (l : List BfInstruction) :
    ∀ (st st' : List BfInstruction) (pr pr' : List BfJumpLocation),
      validateLoop l st pr = .ok (st', pr') →
      pr'.length = pr.length + backwardCount l ∧
      st'.length + backwardCount l = st.length + forwardCount l := by
  induction l with
  | nil =>
    intro st st' pr pr' h
    have h' : (Except.ok (st, pr) :
        Except (List BfJumpLocation × BfInstruction)
          (List BfInstruction × List BfJumpLocation)) = .ok (st', pr') := h
    injection h' with h''
    injection h'' with h1 h2
    subst h1; subst h2
    simp [backwardCount, forwardCount]
  | cons i rest ih =>
    intro st st' pr pr' h
    by_cases hf : i.command = .jumpForward
    · have hb : ¬ i.command = .jumpBackward := by rw [hf]; intro hc; cases hc
      rw [validateLoop_cons_forward _ _ _ _ hf] at h
      have := ih _ _ _ _ h
      rw [backwardCount_cons, forwardCount_cons]
      simp only [hf, hb, if_pos, if_neg, if_true, if_false]
      simp at this ⊢
      omega
    · by_cases hbk : i.command = .jumpBackward
      · cases st with
        | nil =>
          rw [validateLoop_cons_backward_nil _ _ _ hbk] at h
          cases h
        | cons s st0 =>
          rw [validateLoop_cons_backward_cons _ _ _ _ _ hbk] at h
          have := ih _ _ _ _ h
          rw [backwardCount_cons, forwardCount_cons]
          simp only [hbk, hf, if_pos, if_neg, if_true, if_false]
          simp at this ⊢
          omega
      · rw [validateLoop_cons_other _ _ _ _ hf hbk] at h
        have := ih _ _ _ _ h
        rw [backwardCount_cons, forwardCount_cons]
        simp only [hf, hbk, if_neg, if_false]
        simp at this ⊢
        omega

/-- Validation returns `Ok` exactly when the loop ran to completion and
left an empty stack. -/
theorem validate_snd_none_iff (p : BfProgram) :
    (p.validate).snd = none ↔
      loopOk (validateLoop p.instructions [] p.jumpLocations) := by
  unfold BfProgram.validate
  cases hv : validateLoop p.instructions [] p.jumpLocations with
  | ok x =>
    cases x with
    | mk st pr =>
      cases st with
      | nil => simp [loopOk]
      | cons a s => simp [loopOk]
  | error e => cases e; simp [loopOk]

/-- C2: for every parsed program, validation succeeds exactly when the
bracket instructions are well-nested, and on success the number of
recorded bracket pairs equals the count of forward brackets, which equals
the count of backward brackets. -/
theorem c2_validate_wellNested (p : BfProgram) (h : p.jumpLocations = []) :
    ((p.validate).snd = none ↔ wellNested p.instructions) ∧
      ((p.validate).snd = none →
        (p.validate).fst.jumpLocations.length = forwardCount p.instructions ∧
          forwardCount p.instructions = backwardCount p.instructions) := by
  have hiff : (p.validate).snd = none ↔ wellNested p.instructions := by
    rw [validate_snd_none_iff, validateLoop_ok_iff]
    unfold wellNested
    simp
  refine ⟨hiff, ?_⟩
  intro hok
  rw [validate_snd_none_iff] at hok
  rw [validate_fst_jumpLocations p, h]
  cases hv : validateLoop p.instructions [] p.jumpLocations with
  | error e => rw [hv] at hok; cases hok
  | ok x =>
    cases x with
    | mk st pr =>
      rw [hv] at hok
      have hst : st = [] := hok
      subst hst
      rw [h] at hv
      have hc := validateLoop_counts p.instructions [] [] [] pr hv
      rw [hv]
      simp at hc ⊢
      omega

/-- Witness for C2 at the concrete program "><+-[.]": validation succeeds
and the pair/bracket counts agree. -/
theorem c2_validate_wellNested_witness :
    (let p := BfProgram.new "t" (String.toList ("><+-[.]"))
     ((p.validate).snd = none ↔ wellNested p.instructions) ∧
       ((p.validate).snd = none →
         (p.validate).fst.jumpLocations.length = forwardCount p.instructions ∧
           forwardCount p.instructions = backwardCount p.instructions)) :=
  c2_validate_wellNested (BfProgram.new "t" (String.toList ("><+-[.]"))) rfl

/-- The validation loop processes concatenated instruction lists in
sequence, stopping at the first error. -/
theorem validateLoop_append (l1 l2 : List BfInstruction) :
    ∀ (st : List BfInstruction) (pr : List BfJumpLocation),
      validateLoop (l1 ++ l2) st pr =
        match validateLoop l1 st pr with
        | .ok (st', pr') => validateLoop l2 st' pr'
        | .error e => .error e := by
  induction l1 with
  | nil => intro st pr; rfl
  | cons i rest ih =>
    intro st pr
    by_cases hf : i.command = .jumpForward
    · rw [List.cons_append, validateLoop_cons_forward _ _ _ _ hf,
        validateLoop_cons_forward _ _ _ _ hf, ih]
    · by_cases hbk : i.command = .jumpBackward
      · cases st with
        | nil =>
          rw [List.cons_append, validateLoop_cons_backward_nil _ _ _ hbk,
            validateLoop_cons_backward_nil _ _ _ hbk]
        | cons s st0 =>
          rw [List.cons_append, validateLoop_cons_backward_cons _ _ _ _ _ hbk,
            validateLoop_cons_backward_cons _ _ _ _ _ hbk, ih]
      · rw [List.cons_append, validateLoop_cons_other _ _ _ _ hf hbk,
          validateLoop_cons_other _ _ _ _ hf hbk, ih]

/-- C5: a backward bracket reached while no forward bracket is pending
(the instructions before it validate to an empty stack) makes validation
fail immediately with that very instruction, whatever follows it; when
the full pass ends with pending forward brackets, the reported
instruction is the most recently opened unmatched forward bracket (the
bracket `f` such that the instructions after it return the stack to `f`
on top); and the program "[]]" fails with the error located at line 1,
offset 3. -/
theorem c5_unmatched_bracket_errors :
    (∀ (p : BfProgram) (pre : List BfInstruction) (i : BfInstruction)
        (rest : List BfInstruction) (pr' : List BfJumpLocation),
      p.instructions = pre ++ i :: rest →
      i.command = .jumpBackward →
      validateLoop pre [] p.jumpLocations = .ok ([], pr') →
      (p.validate).snd = some i) ∧
    (∀ (p : BfProgram) (pre post : List BfInstruction) (f : BfInstruction)
        (st0 : List BfInstruction) (pr0 prF : List BfJumpLocation),
      p.instructions = pre ++ f :: post →
      f.command = .jumpForward →
      validateLoop pre [] p.jumpLocations = .ok (st0, pr0) →
      validateLoop post (f :: st0) pr0 = .ok (f :: st0, prF) →
      (p.validate).snd = some f) ∧
    ((BfProgram.new "t" (String.toList ("[]]"))).validate).snd =
      some ⟨.jumpBackward, ⟨1, 3⟩⟩ := by
  refine ⟨?_, ?_, rfl⟩
  · intro p pre i rest pr' hins hb hpre
    have hrun : validateLoop p.instructions [] p.jumpLocations = .error (pr', i) := by
      rw [hins, validateLoop_append, hpre]
      show validateLoop (i :: rest) [] pr' = _
      rw [validateLoop_cons_backward_nil _ _ _ hb]
    unfold BfProgram.validate
    rw [hrun]
  · intro p pre post f st0 pr0 prF hins hf hpre hpost
    have hrun : validateLoop p.instructions [] p.jumpLocations = .ok (f :: st0, prF) := by
      rw [hins, validateLoop_append, hpre]
      show validateLoop (f :: post) st0 pr0 = _
      rw [validateLoop_cons_forward _ _ _ _ hf]
      exact hpost
    unfold BfProgram.validate
    rw [hrun]

/-- Witness for C5 at concrete programs: "[]]" fails at its third bracket
(line 1, offset 3), and "+[" fails at its unmatched forward bracket
(line 1, offset 2). -/
theorem c5_unmatched_bracket_errors_witness :
    ((BfProgram.new "t" (String.toList ("[]]"))).validate).snd =
        some ⟨.jumpBackward, ⟨1, 3⟩⟩ ∧
      ((BfProgram.new "t" (String.toList ("+["))).validate).snd =
        some ⟨.jumpForward, ⟨1, 2⟩⟩ := by
  constructor
  · exact c5_unmatched_bracket_errors.1 (BfProgram.new "t" (String.toList ("[]]")))
      [⟨.jumpForward, ⟨1, 1⟩⟩, ⟨.jumpBackward, ⟨1, 2⟩⟩] ⟨.jumpBackward, ⟨1, 3⟩⟩ []
      [⟨0, ⟨1, 1⟩, ⟨1, 2⟩⟩] rfl rfl rfl
  · exact c5_unmatched_bracket_errors.2.1 (BfProgram.new "t" (String.toList ("+[")))
      [⟨.incValue, ⟨1, 1⟩⟩] [] ⟨.jumpForward, ⟨1, 2⟩⟩ [] [] [] rfl rfl rfl rfl

/-- Character conversion never yields the `Comment` variant: `from_char`
returns one of the eight real commands or nothing. -/
theorem fromChar_ne_comment (c : Char) (cmd : BfCommand)
    (h : BfCommand.fromChar c = some cmd) : ¬ cmd = .comment := by
  unfold BfCommand.fromChar at h
  split at h <;> (try cases h) <;> (intro hc; cases hc)

/-- Parsed programs contain no `Comment` instruction. -/
theorem parse_no_comment (f : String) (text : List Char) (i : BfInstruction)
    (hm : i ∈ (BfProgram.new f text).instructions) : ¬ i.command = .comment := by
  have hchar : (BfProgram.new f text).instructions =
      (locatedChars 1 1 text).filterMap instOfLocated := by
    show parseLines 1 (rustLines text) = _
    rw [parseLines_eq_parseFirst]
    exact parseFirst_rustLines text 1 1
  rw [hchar, List.mem_filterMap] at hm
  obtain ⟨x, _, hx⟩ := hm
  unfold instOfLocated at hx
  rw [Option.map_eq_some'] at hx
  obtain ⟨cmd, hc, hi⟩ := hx
  rw [← hi]
  exact fromChar_ne_comment _ _ hc

/-- Wrapping a typed engine error never produces the `todo` panic stop. -/
theorem mapError_err_ne_panicTodo {α : Type} (x : Except BfError α) :
    Except.mapError RunStop.err x ≠ .error .panicTodo := by
  cases x <;> simp [Except.mapError]

/-- A single dispatch step of the execution loop can only reach the
`todo` panic through the `Comment` dispatch arm. -/
theorem step_ne_panicTodo (t : BfTape) (r w : List Nat)
    (h : ∀ i ∈ t.program.instructions, ¬ i.command = .comment) :
    t.step r w ≠ .error .panicTodo := by
  unfold BfTape.step
  split
  · simp
  · rename_i inst hfetch
    split
    · rename_i hcmd
      exact absurd hcmd (h inst (List.get?_mem hfetch))
    all_goals exact mapError_err_ne_panicTodo _


/-- A successful dispatch step never changes the borrowed program. -/
theorem step_program (t t' : BfTape) (r w r' w' : List Nat)
    (hstep : t.step r w = .ok (t', r', w')) : t'.program = t.program := by
  unfold BfTape.step at hstep
  split at hstep
  · exact absurd hstep (by simp)
  · rename_i inst hfetch
    split at hstep
    · exact absurd hstep (by simp)
    -- incDataPointer
    · by_cases hend : t.dataPointer = t.tape.length - 1
      · cases hstrat : t.allocStrategy with
        | tapeIsFixed =>
          simp [BfTape.commandMovePointerForward, BfTape.moveDataPointerForward,
            hend, hstrat, Except.map, Except.mapError, Bind.bind, Except.bind] at hstep
        | tapeCanGrow =>
          simp [BfTape.commandMovePointerForward, BfTape.moveDataPointerForward,
            hend, hstrat, Except.map, Except.mapError, Bind.bind, Except.bind,
            BfTape.advance] at hstep
          obtain ⟨ht', -, -⟩ := hstep
          subst ht'
          rfl
      · simp [BfTape.commandMovePointerForward, BfTape.moveDataPointerForward,
          hend, Except.map, Except.mapError, Bind.bind, Except.bind,
          BfTape.advance] at hstep
        obtain ⟨ht', -, -⟩ := hstep
        subst ht'
        rfl
    -- decDataPointer
    · by_cases h0 : t.dataPointer = 0
      · simp [BfTape.commandMovePointerBack, BfTape.moveDataPointerBack,
          h0, Except.map, Except.mapError, Bind.bind, Except.bind] at hstep
      · simp [BfTape.commandMovePointerBack, BfTape.moveDataPointerBack,
          h0, Except.map, Except.mapError, Bind.bind, Except.bind,
          BfTape.advance] at hstep
        obtain ⟨ht', -, -⟩ := hstep
        subst ht'
        rfl
    -- incValue
    · simp [BfTape.commandIncValue, BfTape.incrementDataValue,
        Except.map, Except.mapError, Bind.bind, Except.bind, BfTape.advance] at hstep
      obtain ⟨ht', -, -⟩ := hstep
      subst ht'
      rfl
    -- decValue
    · simp [BfTape.commandDecValue, BfTape.decrementDataValue,
        Except.map, Except.mapError, Bind.bind, Except.bind, BfTape.advance] at hstep
      obtain ⟨ht', -, -⟩ := hstep
      subst ht'
      rfl
    -- outputValue
    · by_cases hfmt : t.outputFormat = .binaryOutput <;>
        simp [BfTape.commandOutputValue, BfTape.outputValue, hfmt,
          Except.map, Except.mapError, Bind.bind, Except.bind, BfTape.advance] at hstep <;>
        obtain ⟨ht', -, -⟩ := hstep <;> subst ht' <;> rfl
    -- inputValue
    · cases r with
      | nil =>
        simp [BfTape.commandInputValue, BfTape.inputValue,
          Except.map, Except.mapError, Bind.bind, Except.bind, BfTape.advance] at hstep
        obtain ⟨ht', -, -⟩ := hstep
        subst ht'
        rfl
      | cons b bs =>
        simp [BfTape.commandInputValue, BfTape.inputValue,
          Except.map, Except.mapError, Bind.bind, Except.bind, BfTape.advance] at hstep
        obtain ⟨ht', -, -⟩ := hstep
        subst ht'
        rfl
    -- jumpForward
    · by_cases hz : t.getDataValue = 0
      · cases hscan : jumpForwardScan t.currentInstruction.location
            t.program.instructions t.program.jumpLocations with
        | none =>
          simp [BfTape.commandJumpForward, BfTape.jumpForward, hz, hscan,
            Except.map, Except.mapError, Bind.bind, Except.bind] at hstep
        | some i =>
          simp [BfTape.commandJumpForward, BfTape.jumpForward, hz, hscan,
            Except.map, Except.mapError, Bind.bind, Except.bind, BfTape.advance] at hstep
          obtain ⟨ht', -, -⟩ := hstep
          subst ht'
          rfl
      · simp [BfTape.commandJumpForward, BfTape.jumpForward, hz,
          Except.map, Except.mapError, Bind.bind, Except.bind, BfTape.advance] at hstep
        obtain ⟨ht', -, -⟩ := hstep
        subst ht'
        rfl
    -- jumpBackward
    · by_cases hz : t.getDataValue = 0
      · simp [BfTape.commandJumpBackward, BfTape.jumpBackward, hz,
          Except.map, Except.mapError, Bind.bind, Except.bind, BfTape.advance] at hstep
        obtain ⟨ht', -, -⟩ := hstep
        subst ht'
        rfl
      · cases hscan : jumpBackwardScan t.currentInstruction.location
            t.program.instructions t.program.jumpLocations with
        | none =>
          simp [BfTape.commandJumpBackward, BfTape.jumpBackward, hz, hscan,
            Except.map, Except.mapError, Bind.bind, Except.bind] at hstep
        | some i =>
          simp [BfTape.commandJumpBackward, BfTape.jumpBackward, hz, hscan,
            Except.map, Except.mapError, Bind.bind, Except.bind, BfTape.advance] at hstep
          obtain ⟨ht', -, -⟩ := hstep
          subst ht'
          rfl

/-- The fuelled execution loop never stops with the `todo` panic when the
program has no `Comment` instruction. -/
theorem run_no_panicTodo (fuel : Nat) :
    ∀ (t : BfTape) (r w : List Nat),
      (∀ i ∈ t.program.instructions, ¬ i.command = .comment) →
      BfTape.run fuel t r w ≠ .error .panicTodo := by
  induction fuel with
  | zero =>
    intro t r w h
    unfold BfTape.run
    split <;> simp
  | succ n ih =>
    intro t r w h
    unfold BfTape.run
    split
    · simp
    · cases hs : t.step r w with
      | ok x =>
        obtain ⟨t', r', w'⟩ := x
        have hprog := step_program t t' r w r' w' hs
        exact ih t' r' w' (by rw [hprog]; exact h)
      | error e =>
        intro hc
        simp at hc
        subst hc
        exact step_ne_panicTodo t r w h hs

/-- C9: no instruction of a parsed program is the `Comment` variant, so
the `todo!()` dispatch arm of the interpreter is unreachable: running a
parsed and validated program, with any fuel, tape size, policy, output
format and byte sinks, never stops with the `todo` panic. -/
theorem c9_comment_unreachable :
    (∀ (filename : String) (text : List Char) (i : BfInstruction),
      i ∈ (BfProgram.new filename text).instructions → ¬ i.command = .comment) ∧
    (∀ (filename : String) (text : List Char) (fuel size : Nat)
        (strat : AllocStrategy) (fmt : OutputFormat) (r w : List Nat),
      BfTape.run fuel
          (BfTape.new ((BfProgram.new filename text).validate).fst size strat fmt) r w ≠
        .error .panicTodo) := by
  constructor
  · exact fun f text i hm => parse_no_comment f text i hm
  · intro f text fuel size strat fmt r w
    apply run_no_panicTodo
    intro i hm
    have hins := (validate_instructions (BfProgram.new f text)).1
    exact parse_no_comment f text i (by rw [← hins]; exact hm)

/-- Witness for C9 at a concrete program: the single instruction of "+"
is not a comment, and running the validated program "+" never stops with
the `todo` panic. -/
theorem c9_comment_unreachable_witness :
    ¬ (⟨BfCommand.incValue, ⟨1, 1⟩⟩ : BfInstruction).command = .comment ∧
      BfTape.run 5
          (BfTape.new ((BfProgram.new "t" (String.toList ("+"))).validate).fst 3
            .tapeIsFixed .asciiOutput) [] [] ≠
        .error .panicTodo := by
  constructor
  · exact c9_comment_unreachable.1 "t" (String.toList ("+"))
      ⟨BfCommand.incValue, ⟨1, 1⟩⟩ (by simp [BfProgram.new, parseLines, parseLine,
        rustLines, BfCommand.fromChar])
  · exact c9_comment_unreachable.2 "t" (String.toList ("+")) 5 3 .tapeIsFixed
      .asciiOutput [] []

/-- Pairs already recorded stay in the table produced by a successful
loop run. -/
theorem validateLoop_pairs_mono (l : List BfInstruction) :
    ∀ (st st' : List BfInstruction) (pr pr' : List BfJumpLocation),
      validateLoop l st pr = .ok (st', pr') → ∀ x ∈ pr, x ∈ pr' := by
  induction l with
  | nil =>
    intro st st' pr pr' h x hx
    have h' : (Except.ok (st, pr) :
        Except (List BfJumpLocation × BfInstruction)
          (List BfInstruction × List BfJumpLocation)) = .ok (st', pr') := h
    injection h' with h''
    injection h'' with h1 h2
    subst h2
    exact hx
  | cons i rest ih =>
    intro st st' pr pr' h x hx
    by_cases hf : i.command = .jumpForward
    · rw [validateLoop_cons_forward _ _ _ _ hf] at h
      exact ih _ _ _ _ h x hx
    · by_cases hbk : i.command = .jumpBackward
      · cases st with
        | nil => rw [validateLoop_cons_backward_nil _ _ _ hbk] at h; cases h
        | cons s st0 =>
          rw [validateLoop_cons_backward_cons _ _ _ _ _ hbk] at h
          exact ih _ _ _ _ h x (List.mem_append_left _ hx)
      · rw [validateLoop_cons_other _ _ _ _ hf hbk] at h
        exact ih _ _ _ _ h x hx

/-- When the loop completes with an empty stack, every pending forward
bracket on the entry stack, and every forward bracket among the remaining
instructions, ends up as the forward half of some recorded pair. -/
theorem validateLoop_forward_resolved (l : List BfInstruction) :
    ∀ (st : List BfInstruction) (pr pr' : List BfJumpLocation),
      validateLoop l st pr = .ok ([], pr') →
      (∀ s ∈ st, ∃ jmp ∈ pr', jmp.forward = s.location) ∧
      (∀ i ∈ l, i.command = .jumpForward → ∃ jmp ∈ pr', jmp.forward = i.location) := by
  induction l with
  | nil =>
    intro st pr pr' h
    have h' : (Except.ok (st, pr) :
        Except (List BfJumpLocation × BfInstruction)
          (List BfInstruction × List BfJumpLocation)) = .ok ([], pr') := h
    injection h' with h''
    injection h'' with h1 h2
    subst h1
    exact ⟨fun s hs => absurd hs (List.not_mem_nil s), fun i hi => absurd hi (List.not_mem_nil i)⟩
  | cons i rest ih =>
    intro st pr pr' h
    by_cases hf : i.command = .jumpForward
    · rw [validateLoop_cons_forward _ _ _ _ hf] at h
      obtain ⟨h1, h2⟩ := ih (i :: st) pr pr' h
      refine ⟨fun s hs => h1 s (List.mem_cons_of_mem _ hs), ?_⟩
      intro j hj hjf
      cases List.mem_cons.mp hj with
      | inl heq => subst heq; exact h1 j (List.mem_cons_self _ _)
      | inr hm => exact h2 j hm hjf
    · by_cases hbk : i.command = .jumpBackward
      · cases st with
        | nil => rw [validateLoop_cons_backward_nil _ _ _ hbk] at h; cases h
        | cons s st0 =>
          rw [validateLoop_cons_backward_cons _ _ _ _ _ hbk] at h
          obtain ⟨h1, h2⟩ := ih st0 _ pr' h
          have hpair : (⟨st0.length, s.location, i.location⟩ : BfJumpLocation) ∈ pr' :=
            validateLoop_pairs_mono rest st0 [] _ _ h _
              (List.mem_append_right _ (List.mem_singleton.mpr rfl))
          refine ⟨?_, ?_⟩
          · intro s' hs'
            cases List.mem_cons.mp hs' with
            | inl heq => subst heq; exact ⟨_, hpair, rfl⟩
            | inr hm => exact h1 s' hm
          · intro j hj hjf
            cases List.mem_cons.mp hj with
            | inl heq => subst heq; rw [hjf] at hbk; cases hbk
            | inr hm => exact h2 j hm hjf
      · rw [validateLoop_cons_other _ _ _ _ hf hbk] at h
        obtain ⟨h1, h2⟩ := ih st pr pr' h
        refine ⟨h1, ?_⟩
        intro j hj hjf
        cases List.mem_cons.mp hj with
        | inl heq => subst heq; exact absurd hjf hf
        | inr hm => exact h2 j hm hjf

/-- Every backward bracket among the processed instructions of a
successful loop run is the backward half of some recorded pair. -/
theorem validateLoop_backward_recorded (l : List BfInstruction) :
    ∀ (st st' : List BfInstruction) (pr pr' : List BfJumpLocation),
      validateLoop l st pr = .ok (st', pr') →
      ∀ i ∈ l, i.command = .jumpBackward → ∃ jmp ∈ pr', jmp.backward = i.location := by
  induction l with
  | nil =>
    intro st st' pr pr' h i hi
    exact absurd hi (List.not_mem_nil i)
  | cons i rest ih =>
    intro st st' pr pr' h j hj hjb
    by_cases hf : i.command = .jumpForward
    · rw [validateLoop_cons_forward _ _ _ _ hf] at h
      cases List.mem_cons.mp hj with
      | inl heq => subst heq; rw [hjb] at hf; cases hf
      | inr hm => exact ih _ _ _ _ h j hm hjb
    · by_cases hbk : i.command = .jumpBackward
      · cases st with
        | nil => rw [validateLoop_cons_backward_nil _ _ _ hbk] at h; cases h
        | cons s st0 =>
          rw [validateLoop_cons_backward_cons _ _ _ _ _ hbk] at h
          cases List.mem_cons.mp hj with
          | inl heq =>
            subst heq
            exact ⟨_, validateLoop_pairs_mono rest st0 _ _ _ h _
              (List.mem_append_right _ (List.mem_singleton.mpr rfl)), rfl⟩
          | inr hm => exact ih _ _ _ _ h j hm hjb
      · rw [validateLoop_cons_other _ _ _ _ hf hbk] at h
        cases List.mem_cons.mp hj with
        | inl heq => subst heq; exact absurd hjb hbk
        | inr hm => exact ih _ _ _ _ h j hm hjb

/-- Every pair recorded by the loop, beyond those already present, has
its forward location taken from a forward-bracket instruction and its
backward location from a backward-bracket instruction, both satisfying
any property `Q` holding of the entry stack and the instruction list. -/
theorem validateLoop_pairs_src (Q : BfInstruction → Prop) (l : List BfInstruction) :
    ∀ (st st' : List BfInstruction) (pr pr' : List BfJumpLocation),
      validateLoop l st pr = .ok (st', pr') →
      (∀ s ∈ st, Q s ∧ s.command = .jumpForward) →
      (∀ i ∈ l, Q i) →
      ∀ jmp ∈ pr', jmp ∈ pr ∨
        ((∃ a, Q a ∧ a.command = .jumpForward ∧ a.location = jmp.forward) ∧
          (∃ b, Q b ∧ b.command = .jumpBackward ∧ b.location = jmp.backward)) := by
  induction l with
  | nil =>
    intro st st' pr pr' h hst hl jmp hjmp
    have h' : (Except.ok (st, pr) :
        Except (List BfJumpLocation × BfInstruction)
          (List BfInstruction × List BfJumpLocation)) = .ok (st', pr') := h
    injection h' with h''
    injection h'' with h1 h2
    subst h2
    exact .inl hjmp
  | cons i rest ih =>
    intro st st' pr pr' h hst hl jmp hjmp
    by_cases hf : i.command = .jumpForward
    · rw [validateLoop_cons_forward _ _ _ _ hf] at h
      refine ih (i :: st) st' pr pr' h ?_ ?_ jmp hjmp
      · intro s hs
        cases List.mem_cons.mp hs with
        | inl heq => subst heq; exact ⟨hl s (List.mem_cons_self _ _), hf⟩
        | inr hm => exact hst s hm
      · intro j hj
        exact hl j (List.mem_cons_of_mem _ hj)
    · by_cases hbk : i.command = .jumpBackward
      · cases st with
        | nil => rw [validateLoop_cons_backward_nil _ _ _ hbk] at h; cases h
        | cons s st0 =>
          rw [validateLoop_cons_backward_cons _ _ _ _ _ hbk] at h
          have := ih st0 st' _ pr' h
            (fun s' hs' => hst s' (List.mem_cons_of_mem _ hs'))
            (fun j hj => hl j (List.mem_cons_of_mem _ hj)) jmp hjmp
          cases this with
          | inr hr => exact .inr hr
          | inl hmem =>
            cases List.mem_append.mp hmem with
            | inl hp => exact .inl hp
            | inr hone =>
              have heq : jmp = ⟨st0.length, s.location, i.location⟩ :=
                List.mem_singleton.mp hone
              subst heq
              exact .inr ⟨⟨s, (hst s (List.mem_cons_self _ _)).1,
                  (hst s (List.mem_cons_self _ _)).2, rfl⟩,
                ⟨i, hl i (List.mem_cons_self _ _), hbk, rfl⟩⟩
      · rw [validateLoop_cons_other _ _ _ _ hf hbk] at h
        exact ih st st' pr pr' h hst (fun j hj => hl j (List.mem_cons_of_mem _ hj)) jmp hjmp

/-- Two locations with equal line and offset are equal. -/
theorem BfLocation.eq_of_fields (a b : BfLocation) (h1 : a.line = b.line)
    (h2 : a.offset = b.offset) : a = b := by
  cases a; cases b; simp_all

/-- Reading an in-bounds index with a default yields the indexed element. -/
theorem getD_eq_get (l : List BfInstruction) (n : Nat) (d : BfInstruction)
    (h : n < l.length) : l.getD n d = l.get ⟨n, h⟩ := by
  rw [List.getD_eq_get?, List.get?_eq_get h]
  rfl

/-- The location scan succeeds whenever some instruction carries the
sought location. -/
theorem locFind_isSome (loc : BfLocation) (l : List BfInstruction)
    (h : ∃ b ∈ l, b.location = loc) : (locFind loc l).isSome := by
  induction l with
  | nil => obtain ⟨b, hb, _⟩ := h; exact absurd hb (List.not_mem_nil b)
  | cons a rest ih =>
    unfold locFind
    by_cases hc : a.location.line = loc.line ∧ a.location.offset = loc.offset
    · rw [if_pos hc]; rfl
    · rw [if_neg hc]
      have hex : ∃ b ∈ rest, b.location = loc := by
        obtain ⟨b, hb, hbl⟩ := h
        cases List.mem_cons.mp hb with
        | inl heq =>
          subst heq
          exact absurd ⟨by rw [hbl], by rw [hbl]⟩ hc
        | inr hm => exact ⟨b, hm, hbl⟩
      have hsome := ih hex
      cases hlf : locFind loc rest with
      | some m => rfl
      | none => rw [hlf] at hsome; cases hsome

/-- What a successful location scan returns: the index is in bounds and
the instruction there carries the sought location. -/
theorem locFind_spec (loc : BfLocation) (l : List BfInstruction) :
    ∀ n, locFind loc l = some n →
      ∃ h : n < l.length, (l.get ⟨n, h⟩).location = loc := by
  induction l with
  | nil => intro n h; cases h
  | cons a rest ih =>
    intro n h
    unfold locFind at h
    by_cases hc : a.location.line = loc.line ∧ a.location.offset = loc.offset
    · rw [if_pos hc] at h
      injection h with hn
      subst hn
      exact ⟨by simp, BfLocation.eq_of_fields _ _ hc.1 hc.2⟩
    · rw [if_neg hc] at h
      cases hf : locFind loc rest with
      | none => rw [hf] at h; cases h
      | some m =>
        rw [hf] at h
        injection h with hn
        subst hn
        obtain ⟨hm, hloc⟩ := ih m hf
        exact ⟨by simpa using Nat.succ_lt_succ hm, hloc⟩

/-- The forward-jump pair scan succeeds whenever some pair matches the
current location and its backward location resolves. -/
theorem jumpForwardScan_isSome (cur : BfLocation) (instrs : List BfInstruction)
    (pairs : List BfJumpLocation)
    (h : ∃ jmp ∈ pairs, (jmp.forward.line = cur.line ∧ jmp.forward.offset = cur.offset) ∧
      (locFind jmp.backward instrs).isSome) :
    (jumpForwardScan cur instrs pairs).isSome := by
  induction pairs with
  | nil => obtain ⟨j, hj, _⟩ := h; exact absurd hj (List.not_mem_nil j)
  | cons j rest ih =>
    unfold jumpForwardScan
    by_cases hc : j.forward.line = cur.line ∧ j.forward.offset = cur.offset
    · rw [if_pos hc]
      cases hlf : locFind j.backward instrs with
      | some i => rfl
      | none =>
        apply ih
        obtain ⟨j', hj', hcond, hsome⟩ := h
        cases List.mem_cons.mp hj' with
        | inl heq => subst heq; rw [hlf] at hsome; cases hsome
        | inr hm => exact ⟨j', hm, hcond, hsome⟩
    · rw [if_neg hc]
      apply ih
      obtain ⟨j', hj', hcond, hsome⟩ := h
      cases List.mem_cons.mp hj' with
      | inl heq => subst heq; exact absurd hcond hc
      | inr hm => exact ⟨j', hm, hcond, hsome⟩

/-- What a successful forward-jump scan returns: some pair in the table
matches the current location and its backward location resolves to the
returned index. -/
theorem jumpForwardScan_spec (cur : BfLocation) (instrs : List BfInstruction) :
    ∀ (pairs : List BfJumpLocation) (n : Nat),
      jumpForwardScan cur instrs pairs = some n →
      ∃ jmp ∈ pairs, (jmp.forward.line = cur.line ∧ jmp.forward.offset = cur.offset) ∧
        locFind jmp.backward instrs = some n := by
  intro pairs
  induction pairs with
  | nil => intro n h; cases h
  | cons j rest ih =>
    intro n h
    unfold jumpForwardScan at h
    by_cases hc : j.forward.line = cur.line ∧ j.forward.offset = cur.offset
    · rw [if_pos hc] at h
      cases hlf : locFind j.backward instrs with
      | some i =>
        rw [hlf] at h
        injection h with hn
        subst hn
        exact ⟨j, List.mem_cons_self _ _, hc, hlf⟩
      | none =>
        rw [hlf] at h
        obtain ⟨j', hm, hcond, hfind⟩ := ih n h
        exact ⟨j', List.mem_cons_of_mem _ hm, hcond, hfind⟩
    · rw [if_neg hc] at h
      obtain ⟨j', hm, hcond, hfind⟩ := ih n h
      exact ⟨j', List.mem_cons_of_mem _ hm, hcond, hfind⟩

/-- The backward-jump pair scan succeeds whenever some pair matches the
current location and its forward location resolves. -/
theorem jumpBackwardScan_isSome (cur : BfLocation) (instrs : List BfInstruction)
    (pairs : List BfJumpLocation)
    (h : ∃ jmp ∈ pairs, (jmp.backward.line = cur.line ∧ jmp.backward.offset = cur.offset) ∧
      (locFind jmp.forward instrs).isSome) :
    (jumpBackwardScan cur instrs pairs).isSome := by
  induction pairs with
  | nil => obtain ⟨j, hj, _⟩ := h; exact absurd hj (List.not_mem_nil j)
  | cons j rest ih =>
    unfold jumpBackwardScan
    by_cases hc : j.backward.line = cur.line ∧ j.backward.offset = cur.offset
    · rw [if_pos hc]
      cases hlf : locFind j.forward instrs with
      | some i => rfl
      | none =>
        apply ih
        obtain ⟨j', hj', hcond, hsome⟩ := h
        cases List.mem_cons.mp hj' with
        | inl heq => subst heq; rw [hlf] at hsome; cases hsome
        | inr hm => exact ⟨j', hm, hcond, hsome⟩
    · rw [if_neg hc]
      apply ih
      obtain ⟨j', hj', hcond, hsome⟩ := h
      cases List.mem_cons.mp hj' with
      | inl heq => subst heq; exact absurd hcond hc
      | inr hm => exact ⟨j', hm, hcond, hsome⟩

/-- What a successful backward-jump scan returns. -/
theorem jumpBackwardScan_spec (cur : BfLocation) (instrs : List BfInstruction) :
    ∀ (pairs : List BfJumpLocation) (n : Nat),
      jumpBackwardScan cur instrs pairs = some n →
      ∃ jmp ∈ pairs, (jmp.backward.line = cur.line ∧ jmp.backward.offset = cur.offset) ∧
        locFind jmp.forward instrs = some n := by
  intro pairs
  induction pairs with
  | nil => intro n h; cases h
  | cons j rest ih =>
    intro n h
    unfold jumpBackwardScan at h
    by_cases hc : j.backward.line = cur.line ∧ j.backward.offset = cur.offset
    · rw [if_pos hc] at h
      cases hlf : locFind j.forward instrs with
      | some i =>
        rw [hlf] at h
        injection h with hn
        subst hn
        exact ⟨j, List.mem_cons_self _ _, hc, hlf⟩
      | none =>
        rw [hlf] at h
        obtain ⟨j', hm, hcond, hfind⟩ := ih n h
        exact ⟨j', List.mem_cons_of_mem _ hm, hcond, hfind⟩
    · rw [if_neg hc] at h
      obtain ⟨j', hm, hcond, hfind⟩ := ih n h
      exact ⟨j', List.mem_cons_of_mem _ hm, hcond, hfind⟩

/-- C1: on a validated program, when the current instruction is
jump-forward-if-zero and the current cell is zero, the engine finds a
pair whose forward location matches the current instruction, resolves its
backward location to an instruction index `i` by the location scan, and
returns with the program pointer set to `i + 1` (the index of the
matching backward bracket plus the uniform advance, landing just past the
closing bracket); with a non-zero cell the only change is the +1 advance.
Symmetrically for jump-backward-if-nonzero: with a non-zero cell the
program pointer becomes the index of the matching forward bracket plus
one (landing immediately after it); with a zero cell only the +1
advance happens. -/
theorem c1_jump_resolution (p0 : BfProgram) (h0 : p0.jumpLocations = [])
    (hok : (p0.validate).snd = none) (t : BfTape)
    (hprog : t.program = (p0.validate).fst)
    (hpp : t.programPointer < t.program.instructions.length) :
    ((t.program.instructions.get ⟨t.programPointer, hpp⟩).command = .jumpForward →
      (t.getDataValue = 0 →
        ∃ i, jumpForwardScan t.currentInstruction.location t.program.instructions
            t.program.jumpLocations = some i ∧
          t.commandJumpForward = .ok { t with programPointer := i + 1 } ∧
          ∃ hi : i < t.program.instructions.length,
            ∃ jmp ∈ t.program.jumpLocations,
              jmp.forward = t.currentInstruction.location ∧
              (t.program.instructions.get ⟨i, hi⟩).location = jmp.backward) ∧
      (¬ t.getDataValue = 0 →
        t.commandJumpForward = .ok { t with programPointer := t.programPointer + 1 })) ∧
    ((t.program.instructions.get ⟨t.programPointer, hpp⟩).command = .jumpBackward →
      (¬ t.getDataValue = 0 →
        ∃ i, jumpBackwardScan t.currentInstruction.location t.program.instructions
            t.program.jumpLocations = some i ∧
          t.commandJumpBackward = .ok { t with programPointer := i + 1 } ∧
          ∃ hi : i < t.program.instructions.length,
            ∃ jmp ∈ t.program.jumpLocations,
              jmp.backward = t.currentInstruction.location ∧
              (t.program.instructions.get ⟨i, hi⟩).location = jmp.forward) ∧
      (t.getDataValue = 0 →
        t.commandJumpBackward = .ok { t with programPointer := t.programPointer + 1 })) := by
  rw [validate_snd_none_iff, h0] at hok
  have hinstr : t.program.instructions = p0.instructions := by
    rw [hprog]
    exact (validate_instructions p0).1
  cases hv : validateLoop p0.instructions [] [] with
  | error e => rw [hv] at hok; cases hok
  | ok x =>
    obtain ⟨st, P⟩ := x
    rw [hv] at hok
    have hst : st = [] := hok
    subst hst
    have hpairs : t.program.jumpLocations = P := by
      rw [hprog, validate_fst_jumpLocations p0, h0, hv]
      simp
    have hres := validateLoop_forward_resolved p0.instructions [] [] P hv
    have hrec := validateLoop_backward_recorded p0.instructions [] [] [] P hv
    have hsrc := validateLoop_pairs_src (fun a => a ∈ p0.instructions) p0.instructions
      [] [] [] P hv (fun s hs => absurd hs (List.not_mem_nil s)) (fun i hi => hi)
    have hcur : t.currentInstruction = t.program.instructions.get ⟨t.programPointer, hpp⟩ := by
      unfold BfTape.currentInstruction
      exact getD_eq_get _ _ _ hpp
    have hcmem : t.currentInstruction ∈ p0.instructions := by
      rw [← hinstr, hcur]
      exact List.get_mem _ _ _
    constructor
    · intro hcmd
      have hcmdc : t.currentInstruction.command = .jumpForward := by rw [hcur]; exact hcmd
      constructor
      · intro hz
        obtain ⟨jmp, hjmem, hjf⟩ := hres.2 t.currentInstruction hcmem hcmdc
        have hbex : ∃ b ∈ t.program.instructions, b.location = jmp.backward := by
          rcases hsrc jmp hjmem with hmem0 | ⟨-, ⟨b, hbQ, -, hbl⟩⟩
          · exact absurd hmem0 (List.not_mem_nil jmp)
          · exact ⟨b, by rw [hinstr]; exact hbQ, hbl⟩
        have hsome := jumpForwardScan_isSome t.currentInstruction.location
          t.program.instructions t.program.jumpLocations
          ⟨jmp, by rw [hpairs]; exact hjmem, ⟨by rw [hjf], by rw [hjf]⟩,
            locFind_isSome _ _ hbex⟩
        cases hscan : jumpForwardScan t.currentInstruction.location
            t.program.instructions t.program.jumpLocations with
        | none => rw [hscan] at hsome; cases hsome
        | some i =>
          refine ⟨i, rfl, ?_, ?_⟩
          · unfold BfTape.commandJumpForward BfTape.jumpForward
            rw [if_pos hz, hscan]
            simp [Bind.bind, Except.bind, BfTape.advance]
          · obtain ⟨jmp', hjmem', hcond', hlf'⟩ := jumpForwardScan_spec _ _ _ i hscan
            obtain ⟨hi, hloc⟩ := locFind_spec _ _ i hlf'
            exact ⟨hi, jmp', hjmem',
              BfLocation.eq_of_fields _ _ hcond'.1 hcond'.2, hloc⟩
      · intro hnz
        unfold BfTape.commandJumpForward BfTape.jumpForward
        rw [if_neg hnz]
        simp [Bind.bind, Except.bind, BfTape.advance]
    · intro hcmd
      have hcmdc : t.currentInstruction.command = .jumpBackward := by rw [hcur]; exact hcmd
      constructor
      · intro hnz
        obtain ⟨jmp, hjmem, hjb⟩ := hrec t.currentInstruction hcmem hcmdc
        have hfex : ∃ b ∈ t.program.instructions, b.location = jmp.forward := by
          rcases hsrc jmp hjmem with hmem0 | ⟨⟨a, haQ, -, hal⟩, -⟩
          · exact absurd hmem0 (List.not_mem_nil jmp)
          · exact ⟨a, by rw [hinstr]; exact haQ, hal⟩
        have hsome := jumpBackwardScan_isSome t.currentInstruction.location
          t.program.instructions t.program.jumpLocations
          ⟨jmp, by rw [hpairs]; exact hjmem, ⟨by rw [hjb], by rw [hjb]⟩,
            locFind_isSome _ _ hfex⟩
        cases hscan : jumpBackwardScan t.currentInstruction.location
            t.program.instructions t.program.jumpLocations with
        | none => rw [hscan] at hsome; cases hsome
        | some i =>
          refine ⟨i, rfl, ?_, ?_⟩
          · unfold BfTape.commandJumpBackward BfTape.jumpBackward
            rw [if_pos hnz, hscan]
            simp [Bind.bind, Except.bind, BfTape.advance]
          · obtain ⟨jmp', hjmem', hcond', hlf'⟩ := jumpBackwardScan_spec _ _ _ i hscan
            obtain ⟨hi, hloc⟩ := locFind_spec _ _ i hlf'
            exact ⟨hi, jmp', hjmem',
              BfLocation.eq_of_fields _ _ hcond'.1 hcond'.2, hloc⟩
      · intro hz
        unfold BfTape.commandJumpBackward BfTape.jumpBackward
        rw [if_neg (fun hn => hn hz)]
        simp [Bind.bind, Except.bind, BfTape.advance]

/-- Witness for C1 at the concrete validated program "[]" on a fresh
tape: the `[` at index 0 with cell value 0 jumps so that after the +1
advance the program pointer is 2, just past the matching `]` at
index 1. -/
theorem c1_jump_resolution_witness :
    (BfTape.new ((BfProgram.new "t" (String.toList ("[]"))).validate).fst 3
        .tapeIsFixed .asciiOutput).commandJumpForward =
      .ok { BfTape.new ((BfProgram.new "t" (String.toList ("[]"))).validate).fst 3
          .tapeIsFixed .asciiOutput with programPointer := 2 } := by
  obtain ⟨i, hscan, heq, -⟩ :=
    ((c1_jump_resolution (BfProgram.new "t" (String.toList ("[]"))) rfl rfl
        (BfTape.new ((BfProgram.new "t" (String.toList ("[]"))).validate).fst 3
          .tapeIsFixed .asciiOutput) rfl (by decide)).1 (by decide)).1 (by decide)
  have h1 : i = 1 := by
    have hval : jumpForwardScan
        (BfTape.new ((BfProgram.new "t" (String.toList ("[]"))).validate).fst 3
          .tapeIsFixed .asciiOutput).currentInstruction.location
        (BfTape.new ((BfProgram.new "t" (String.toList ("[]"))).validate).fst 3
          .tapeIsFixed .asciiOutput).program.instructions
        (BfTape.new ((BfProgram.new "t" (String.toList ("[]"))).validate).fst 3
          .tapeIsFixed .asciiOutput).program.jumpLocations = some 1 := rfl
    rw [hval] at hscan
    injection hscan with hscan'
    exact hscan'.symm
  subst h1
  exact heq

end Bft
